import Mathlib

/-!
Verification of the segmented byte-range retrieval engine of the nzb tool:
the yEnc line codec (`decodeYEncLine`), the range planner and assembler
inside the `get` command, and the NNTP client operations (`Request`, `Auth`,
`Quit`).  Bytes are modelled as `Nat` values below 256; Go's `& 0xFF` on a
(possibly negative) `int` is `Int.emod 256`.
-/

/-- Embedding of `decodeYEncLine` (yenc.go).  Go source: scan byte by byte;
on the escape marker `'='` (61) the next byte `n` decodes to
`(int(n) - 64 - 42) & 0xFF`; a marker with no following byte is the error
"unterminated escape in yEnc line" (modelled as `none`); every other byte `c`
decodes to `(int(c) - 42) & 0xFF`.  The empty line returns `(nil, nil)`,
i.e. success with empty output. -/
def decodeYEncLine : List Nat → Option (List Nat)
  | [] => some []
  | c :: rest =>
    if c = 61 then
      match rest with
      | [] => none
      | n :: rest2 =>
        (decodeYEncLine rest2).map (fun out => (((n : Int) - 64 - 42).emod 256).toNat :: out)
    else
      (decodeYEncLine rest).map (fun out => (((c : Int) - 42).emod 256).toNat :: out)

/-- Modelled from the spec's words (the mirror transform of §6/§8, not present
in the source): byte `b` maps to `(b + 42) mod 256`, except that when that
value is the escape marker `'='` or a protocol-sensitive value (NUL, LF, CR)
it is emitted as the marker followed by `(b + 42 + 64) mod 256`. -/
def encodeByte (b : Nat) : List Nat :=
  let t := (b + 42) % 256
  if t = 0 ∨ t = 10 ∨ t = 13 ∨ t = 61 then [61, (b + 42 + 64) % 256] else [t]

/-- Modelled from the spec's words: `encode_line` is `encodeByte` applied to
each raw byte in order. -/
def encodeLine (bs : List Nat) : List Nat :=
  (bs.map encodeByte).flatten

/-- A manifest segment as used by `getCmd` (main.go): transport identifier and
declared size in bytes (`seg.ID`, `seg.Bytes`). -/
structure Segment where
  id : String
  bytes : Int
  deriving DecidableEq

/-- A planned piece (the local `piece` struct of `getCmd`): segment id and the
inclusive decoded-byte window `[start, end]` within that segment. -/
structure Piece where
  id : String
  start : Int
  stop : Int
  deriving DecidableEq

/-- Embedding of the segment-walking loop of `getCmd` (main.go lines 370-390):
`offset` is the running absolute offset, `pieces` the accumulator.  A segment
ending strictly before `s` is skipped; the first appended piece gets
`start = s - offset`; a segment whose absolute end reaches `e` gets
`end = segSize - (offset + segSize - 1 - e) - 1` and terminates the loop. -/
def planGo : List Segment → Int → Int → Int → List Piece → List Piece
  | [], _, _, _, pieces => pieces
  | seg :: rest, s, e, offset, pieces =>
    let segSize := seg.bytes
    if offset + segSize - 1 < s then
      planGo rest s e (offset + segSize) pieces
    else
      let pStart := if pieces.isEmpty then s - offset else 0
      if offset + segSize - 1 ≥ e then
        pieces ++ [⟨seg.id, pStart, segSize - (offset + segSize - 1 - e) - 1⟩]
      else
        planGo rest s e (offset + segSize) (pieces ++ [⟨seg.id, pStart, segSize - 1⟩])

/-- The planner of `getCmd`: walk the segment list from offset 0 with an empty
piece accumulator. -/
def plan (segs : List Segment) (s e : Int) : List Piece :=
  planGo segs s e 0 []

/-- The planner as described by the spec's words (§4.2): walk segments in order
accumulating an offset; skip segments ending strictly before `range.start`;
the first overlapping segment's piece gets `intraStart = range.start - offset`
and later pieces get 0; `intraEnd` defaults to `declaredSize - 1` unless the
segment's absolute end reaches or passes `range.end`, in which case
`intraEnd = declaredSize - 1 - (absoluteSegmentEnd - range.end)` and this is
the last piece.  The Boolean records whether the next included segment is the
first one. -/
def planSpecGo : List Segment → Int → Int → Int → Bool → List Piece
  | [], _, _, _, _ => []
  | seg :: rest, s, e, offset, first =>
    if offset + seg.bytes - 1 < s then
      planSpecGo rest s e (offset + seg.bytes) first
    else
      let iStart := if first then s - offset else 0
      if offset + seg.bytes - 1 ≥ e then
        [⟨seg.id, iStart, seg.bytes - 1 - (offset + seg.bytes - 1 - e)⟩]
      else
        ⟨seg.id, iStart, seg.bytes - 1⟩ :: planSpecGo rest s e (offset + seg.bytes) false

/-- The declared file size computed by `parseNZB` (main.go lines 115-128): the
size parsed from the yEnc subject when it is positive, otherwise the sum of
the declared segment sizes.  `subjectSize` stands for the `size` result of
`yEncParse` on the file's subject (the regex itself is not embedded; it is
zero when the subject carries no size). -/
def fileSizeNum (subjectSize : Int) (segBytes : List Int) : Int :=
  if subjectSize > 0 then subjectSize else segBytes.foldl (· + ·) 0

/-- The end-offset default of `getCmd` (main.go line 356): a requested end of
0 is rewritten to `fileSize - 1`. -/
def effEnd (e fileSize : Int) : Int :=
  if e = 0 then fileSize - 1 else e

/-- The range validation of `getCmd` (main.go line 359): the request is
rejected when `start < 0 || end < 0 || start > end || end >= fileSize`.
Returns `true` when the range is accepted. -/
def rangeValid (s e fileSize : Int) : Bool :=
  !(s < 0 || e < 0 || s > e || e ≥ fileSize)

/-- The requested range as `getCmd` resolves it: apply the end-0 default, then
validate; `none` is the "invalid range" error. -/
def getRange (s e fileSize : Int) : Option (Int × Int) :=
  let e2 := effEnd e fileSize
  if rangeValid s e2 fileSize then some (s, e2) else none

/-- Transported protocol lines are modelled as byte lists (Go strings are
byte slices).  The bytes of `"=ybegin"`, the prefix that marks a yEnc header
line. -/
def bytesYBegin : List Nat := [61, 121, 98, 101, 103, 105, 110]

/-- The bytes of `"=ypart"`. -/
def bytesYPart : List Nat := [61, 121, 112, 97, 114, 116]

/-- The bytes of `"=yend"`. -/
def bytesYEnd : List Nat := [61, 121, 101, 110, 100]

/-- The bytes of `".."`, the doubled end-marker at the head of a dot-stuffed
line. -/
def bytesDotDot : List Nat := [46, 46]

/-- Embedding of the per-piece assembly loop of `getCmd` (main.go lines
432-469) over the lines returned by `client.Body` (i.e. already de-stuffed by
the transport reader `ReadDotLines`).  Per line: skip yEnc metadata/trailer
lines by prefix; strip one leading byte from a line beginning `".."`; decode;
skip empty decodes; emit `decoded[startOff : endOff+1]` where
`startOff = pc.start - segWritten` when positive else 0 and
`endOff = pc.end - segWritten` when `pc.end < segWritten + chunkLen - 1` else
`chunkLen - 1`; stop once `segWritten > pc.end`.  `none` is a decode error
aborting the whole get. -/
def assembleGo : List (List Nat) → Int → Int → Int → List Nat → Option (List Nat)
  | [], _, _, _, out => some out
  | line :: rest, pcStart, pcEnd, segWritten, out =>
    if bytesYBegin.isPrefixOf line || bytesYPart.isPrefixOf line || bytesYEnd.isPrefixOf line then
      assembleGo rest pcStart pcEnd segWritten out
    else
      let l2 := if bytesDotDot.isPrefixOf line then line.drop 1 else line
      match decodeYEncLine l2 with
      | none => none
      | some decoded =>
        if decoded.length = 0 then
          assembleGo rest pcStart pcEnd segWritten out
        else
          let chunkLen : Int := decoded.length
          let startOff : Int := if pcStart > segWritten then pcStart - segWritten else 0
          let endOff : Int :=
            if pcEnd < segWritten + chunkLen - 1 then pcEnd - segWritten else chunkLen - 1
          let out2 :=
            if startOff ≤ endOff then
              out ++ (decoded.drop startOff.toNat).take (endOff + 1 - startOff).toNat
            else out
          let segWritten2 := segWritten + chunkLen
          if segWritten2 > pcEnd then some out2 else assembleGo rest pcStart pcEnd segWritten2 out2

/-- The piece loop of `getCmd` (lines 427-470): for each planned piece fetch
the segment's body lines (`body` models `client.Body`, `none` being a fetch
error) and run the assembly loop from `segWritten = 0`; outputs are written to
the sink in piece order. -/
def fetchPieces : List Piece → (String → Option (List (List Nat))) → Option (List Nat)
  | [], _ => some []
  | pc :: rest, body =>
    match body pc.id with
    | none => none
    | some lines =>
      match assembleGo lines pc.start pc.stop 0 [] with
      | none => none
      | some out => (fetchPieces rest body).map (fun tl => out ++ tl)

/-- `fetch_range` for a validated range: plan the pieces, then assemble each in
order. -/
def fetchRange (segs : List Segment) (body : String → Option (List (List Nat))) (s e : Int) :
    Option (List Nat) :=
  fetchPieces (plan segs s e) body

/-- Go `unicode.IsSpace` restricted to ASCII bytes (space, tab, LF, VT, FF,
CR), as used by `strings.TrimSpace`. -/
def isSpaceByte (c : Nat) : Bool :=
  c = 32 || c = 9 || c = 10 || c = 11 || c = 12 || c = 13

/-- Go `strings.TrimSpace` on a byte line: drop whitespace from both ends. -/
def trimSpace (cs : List Nat) : List Nat :=
  ((cs.dropWhile isSpaceByte).reverse.dropWhile isSpaceByte).reverse

/-- The digit-accumulating core of Go `strconv.Atoi`: all bytes must be ASCII
digits. -/
def atoiDigits : List Nat → Nat → Option Nat
  | [], acc => some acc
  | c :: rest, acc =>
    if 48 ≤ c ∧ c ≤ 57 then atoiDigits rest (acc * 10 + (c - 48)) else none

/-- Go `strconv.Atoi` on a byte line: optional sign, then at least one digit
(overflow is not modelled). -/
def atoi : List Nat → Option Int
  | [] => none
  | 43 :: rest => if rest.isEmpty then none else (atoiDigits rest 0).map Int.ofNat
  | 45 :: rest => if rest.isEmpty then none else (atoiDigits rest 0).map (fun n => -(n : Int))
  | cs => (atoiDigits cs 0).map Int.ofNat

/-- Embedding of the status-code parse in `NNTPClient.Request` (nntp.go lines
129-135): `strings.SplitN(line, " ", 2)` keeps everything before the first
space in its first component; that component is trimmed and given to `Atoi`;
an unparseable code stays 0. -/
def parseCode (line : List Nat) : Int :=
  match atoi (trimSpace (line.takeWhile (fun c => ¬ c = 32))) with
  | some v => v
  | none => 0

/-- Go `strings.ToUpper` on an ASCII byte. -/
def asciiUpper (c : Nat) : Nat :=
  if 97 ≤ c ∧ c ≤ 122 then c - 32 else c

/-- The bytes of `"BODY"`. -/
def bytesBODY : List Nat := [66, 79, 68, 89]

/-- The bytes of `"HEAD"`. -/
def bytesHEAD : List Nat := [72, 69, 65, 68]

/-- The bytes of `"ARTICLE"`. -/
def bytesARTICLE : List Nat := [65, 82, 84, 73, 67, 76, 69]

/-- The bytes of `"STAT"`. -/
def bytesSTAT : List Nat := [83, 84, 65, 84]

/-- Embedding of `NNTPClient.Request` (nntp.go lines 115-150).  The transport
is abstracted by the outcomes of its two reads: `statusRead` (the status
line) and `dotRead` (the `ReadDotLines` payload read).  After a successful
status read the code is parsed; a dot-terminated payload is read only when
the code is in `[200, 300)` and the upper-cased method is BODY, HEAD or
ARTICLE; an error from the payload read is ignored (payload stays `none`) and
the call still returns success. -/
def Request (method : List Nat) (statusRead : Except Unit (List Nat))
    (dotRead : Except Unit (List (List Nat))) :
    Except Unit (Int × List Nat × Option (List (List Nat))) :=
  match statusRead with
  | .error err => .error err
  | .ok line =>
    let code := parseCode line
    let dotLines : Option (List (List Nat)) :=
      if 200 ≤ code ∧ code < 300 then
        let m := method.map asciiUpper
        if m = bytesBODY ∨ m = bytesHEAD ∨ m = bytesARTICLE then
          match dotRead with
          | .ok ls => some ls
          | .error _ => none
        else none
      else none
    .ok (code, line, dotLines)

/-- Outcome of `NNTPClient.Auth`: success, a transport read error, the
"auth failed" rejection after sending the password, or the
"auth unexpected response" protocol error. -/
inductive AuthOutcome where
  | ok : AuthOutcome
  | ioErr : AuthOutcome
  | rejected : List Nat → AuthOutcome
  | unexpected : List Nat → AuthOutcome
  deriving DecidableEq

/-- The bytes of `"381"`, the password-required status. -/
def bytes381 : List Nat := [51, 56, 49]

/-- The bytes of `"281"`, the accepted-authentication status. -/
def bytes281 : List Nat := [50, 56, 49]

/-- Embedding of `NNTPClient.Auth` (nntp.go lines 61-103) over byte lines,
abstracting the transport by the two response reads.  Returns the outcome
together with whether `AUTHINFO USER` and `AUTHINFO PASS` were sent. -/
def Auth (username : String) (resp1 resp2 : Except Unit (List Nat)) :
    AuthOutcome × Bool × Bool :=
  if username = "" then (.ok, false, false)
  else
    match resp1 with
    | .error _ => (.ioErr, true, false)
    | .ok l1 =>
      if bytes381.isPrefixOf l1 then
        match resp2 with
        | .error _ => (.ioErr, true, true)
        | .ok l2 =>
          if bytes281.isPrefixOf l2 then (.ok, true, true) else (.rejected l2, true, true)
      else if bytes281.isPrefixOf l1 then (.ok, true, false)
      else (.unexpected l1, true, false)

/-- The transport connection underlying an `NNTPClient`: only whether it has
been closed is observable here. -/
structure Conn where
  closed : Bool
  deriving DecidableEq

/-- `conn.Close` as documented for the Go net package: closing an
already-closed connection returns `net.ErrClosed`; otherwise the transport is
released and the call succeeds. -/
def connClose (c : Conn) : Except Unit Unit × Conn :=
  if c.closed then (.error (), c) else (.ok (), ⟨true⟩)

/-- Embedding of `NNTPClient.Quit` (nntp.go lines 159-163): the `QUIT` line
and the flush are sent best-effort (`sendRes` is discarded), then the
connection is closed via `NNTPClient.Close`, whose result is returned. -/
def Quit (sendRes : Except Unit Unit) (c : Conn) : Except Unit Unit × Conn :=
  let _ := sendRes
  connClose c

/-! Theorems. -/

theorem decodeYEncLine_cons_ne (c : Nat) (rest : List Nat) (hc : ¬ c = 61) :
    decodeYEncLine (c :: rest) =
      (decodeYEncLine rest).map (fun out => (((c : Int) - 42).emod 256).toNat :: out) := by
  rw [decodeYEncLine.eq_def]
  split
  next _ heq => exact absurd heq (by simp)
  next _ n2 rest2 heq =>
    injection heq with h1 h2
    subst h1; subst h2
    rw [if_neg hc]

theorem decodeYEncLine_marker_cons (n : Nat) (rest2 : List Nat) :
    decodeYEncLine (61 :: n :: rest2) =
      (decodeYEncLine rest2).map (fun out => (((n : Int) - 64 - 42).emod 256).toNat :: out) := rfl

/-- A line that decodes successfully, extended by a bare escape marker, fails
to decode: the scan consumes the prefix and then meets the marker with no
following byte. -/
theorem decode_append_marker : ∀ p : List Nat, (∃ r, decodeYEncLine p = some r) →
    decodeYEncLine (p ++ [61]) = none := by
  intro p
  induction p using decodeYEncLine.induct with
  | case1 => intro _; rfl
  | case2 => intro h; simp [decodeYEncLine] at h
  | case3 n rest2 ih =>
    intro h
    rw [decodeYEncLine_marker_cons] at h
    cases hd : decodeYEncLine rest2 with
    | none => rw [hd] at h; simp at h
    | some r2 =>
      rw [List.cons_append, List.cons_append, decodeYEncLine_marker_cons, ih ⟨r2, hd⟩]
      rfl
  | case4 c rest hc ih =>
    intro h
    rw [decodeYEncLine_cons_ne c rest hc] at h
    cases hd : decodeYEncLine rest with
    | none => rw [hd] at h; simp at h
    | some r2 =>
      rw [List.cons_append, decodeYEncLine_cons_ne c (rest ++ [61]) hc, ih ⟨r2, hd⟩]
      rfl

/-- Every decode failure is a cleanly-decodable prefix followed by a final,
unconsumed escape marker. -/
theorem decode_none_structure : ∀ p : List Nat, decodeYEncLine p = none →
    ∃ q, p = q ++ [61] ∧ ∃ r, decodeYEncLine q = some r := by
  intro p
  induction p using decodeYEncLine.induct with
  | case1 => intro h; simp [decodeYEncLine] at h
  | case2 => intro _; exact ⟨[], rfl, [], rfl⟩
  | case3 n rest2 ih =>
    intro h
    rw [decodeYEncLine_marker_cons] at h
    cases hd : decodeYEncLine rest2 with
    | some r2 => rw [hd] at h; simp at h
    | none =>
      obtain ⟨q, hq, r, hr⟩ := ih hd
      refine ⟨61 :: n :: q, by simp [hq], ?_⟩
      rw [decodeYEncLine_marker_cons, hr]
      exact ⟨_, rfl⟩
  | case4 c rest hc ih =>
    intro h
    rw [decodeYEncLine_cons_ne c rest hc] at h
    cases hd : decodeYEncLine rest with
    | some r2 => rw [hd] at h; simp at h
    | none =>
      obtain ⟨q, hq, r, hr⟩ := ih hd
      refine ⟨c :: q, by simp [hq], ?_⟩
      rw [decodeYEncLine_cons_ne c q hc, hr]
      exact ⟨_, rfl⟩

/-- C4: for every byte `b` in 0..255, `decodeYEncLine (encodeLine [b])`
succeeds and returns `[b]`, where `encodeLine` is the spec's mirror transform
(escape marker and protocol-sensitive values escaped, everything shifted by
+42 modulo 256). -/
theorem c4_yenc_roundtrip (b : Nat) (hb : b < 256) :
    decodeYEncLine (encodeLine [b]) = some [b] := by
  have h : ∀ x : Nat, x < 256 → decodeYEncLine (encodeLine [x]) = some [x] := by
    set_option maxRecDepth 4096 in decide
  exact h b hb

/-- C4 witness: the round trip at the concrete byte 19, whose shifted value is
the escape marker itself and therefore takes the escaped branch. -/
theorem c4_yenc_roundtrip_witness : decodeYEncLine (encodeLine [19]) = some [19] :=
  c4_yenc_roundtrip 19 (by decide)

/-- C5: `decodeYEncLine` fails exactly when the line is a cleanly decodable
prefix followed by a final escape marker with no byte after it to unescape
(so the final marker is consumed as a marker, not as an escaped byte); every
other input succeeds, and the empty input yields empty output rather than an
error. -/
theorem c5_malformed_escape :
    decodeYEncLine [] = some [] ∧
    ∀ line : List Nat,
      decodeYEncLine line = none ↔ ∃ p, line = p ++ [61] ∧ ∃ r, decodeYEncLine p = some r := by
  refine ⟨rfl, fun line => ⟨decode_none_structure line, ?_⟩⟩
  rintro ⟨p, rfl, hp⟩
  exact decode_append_marker p hp

theorem planGo_eq_specGo (segs : List Segment) : ∀ (s e offset : Int) (pieces : List Piece),
    planGo segs s e offset pieces = pieces ++ planSpecGo segs s e offset pieces.isEmpty := by
  induction segs with
  | nil => intro s e offset pieces; simp [planGo, planSpecGo]
  | cons seg rest ih =>
    intro s e offset pieces
    simp only [planGo, planSpecGo]
    split
    · exact ih s e (offset + seg.bytes) pieces
    · split
      · have hstop : seg.bytes - (offset + seg.bytes - 1 - e) - 1
            = seg.bytes - 1 - (offset + seg.bytes - 1 - e) := by ring
        rw [hstop]
      · rw [ih s e (offset + seg.bytes) (pieces ++ [_]), List.append_assoc]
        congr 2
        cases pieces <;> rfl

/-- C3: the piece-building loop of `getCmd` is exactly the spec's walk
(`planSpecGo`): skip segments ending before the range, `intraStart =
range.start - offsetAtSegmentStart` for the first overlapping piece,
`intraEnd = declaredSize - 1` except `declaredSize - 1 - (absoluteSegmentEnd -
range.end)` for the last piece; in particular sizes `[100, 100]` with range
`[0, 199]` give pieces `(seg0, 0, 99)` and `(seg1, 0, 99)`, and range
`[150, 180]` gives the single piece `(seg1, 50, 80)`. -/
theorem c3_planner_walk :
    (∀ (segs : List Segment) (s e : Int), plan segs s e = planSpecGo segs s e 0 true) ∧
    plan [⟨"seg0", 100⟩, ⟨"seg1", 100⟩] 0 199 = [⟨"seg0", 0, 99⟩, ⟨"seg1", 0, 99⟩] ∧
    plan [⟨"seg0", 100⟩, ⟨"seg1", 100⟩] 150 180 = [⟨"seg1", 50, 80⟩] := by
  refine ⟨fun segs s e => ?_, by decide, by decide⟩
  simpa using planGo_eq_specGo segs s e 0 []

theorem planSpecGo_invariant : ∀ (segs : List Segment) (s e offset : Int) (first : Bool),
    (∀ sg ∈ segs, 0 < sg.bytes) → 0 ≤ s → s ≤ e →
    ((first = true → offset ≤ s) ∧ (first = false → s < offset ∧ offset ≤ e)) →
    ∀ p ∈ planSpecGo segs s e offset first,
      p.start ≤ p.stop ∧ ∃ sg ∈ segs, sg.id = p.id ∧ p.stop < sg.bytes := by
  intro segs
  induction segs with
  | nil => intro s e offset first _ _ _ _ p hp; simp [planSpecGo] at hp
  | cons seg rest ih =>
    intro s e offset first hpos hs hse hoff p hp
    have hz : 0 < seg.bytes := hpos seg (by simp)
    have hpos2 : ∀ sg ∈ rest, 0 < sg.bytes := fun sg hm => hpos sg (List.mem_cons_of_mem _ hm)
    simp only [planSpecGo] at hp
    split at hp
    case isTrue hskip =>
      cases first with
      | true =>
        have hoff1 : offset ≤ s := hoff.1 rfl
        obtain ⟨h1, sg, hm, h2⟩ :=
          ih s e (offset + seg.bytes) true hpos2 hs hse
            ⟨fun _ => by omega, fun h => by simp at h⟩ p hp
        exact ⟨h1, sg, List.mem_cons_of_mem _ hm, h2⟩
      | false =>
        have hoff2 := hoff.2 rfl
        omega
    case isFalse hnoskip =>
      split at hp
      case isTrue hlast =>
        simp only [List.mem_singleton] at hp
        subst hp
        refine ⟨?_, seg, by simp, rfl, ?_⟩
        · cases first with
          | true => have := hoff.1 rfl; simp; omega
          | false => have := hoff.2 rfl; simp; omega
        · simp; omega
      case isFalse hnotlast =>
        rw [List.mem_cons] at hp
        cases hp with
        | inl hp =>
          subst hp
          refine ⟨?_, seg, by simp, rfl, ?_⟩
          · cases first with
            | true => have := hoff.1 rfl; simp; omega
            | false => have := hoff.2 rfl; simp; omega
          · simp
        | inr hp =>
          obtain ⟨h1, sg, hm, h2⟩ :=
            ih s e (offset + seg.bytes) false hpos2 hs hse
              ⟨fun h => by simp at h, fun _ => by omega⟩ p hp
          exact ⟨h1, sg, List.mem_cons_of_mem _ hm, h2⟩

/-- C8 counterexample: with merely non-negative declared sizes (a zero-size
segment between two others) and a range accepted by validation against the
sum of declared sizes, `plan` emits the piece `("b", 0, -1)` whose
`intraStart` exceeds its `intraEnd`, so the claimed invariant fails as
stated. -/
theorem c8_zero_size_counterexample :
    (∀ sg ∈ [⟨"a", 5⟩, ⟨"b", 0⟩, ⟨"c", 5⟩ ], (0:Int) ≤ Segment.bytes sg) ∧
    rangeValid 0 9 (fileSizeNum 0 [5, 0, 5]) = true ∧
    (⟨"b", 0, -1⟩ : Piece) ∈ plan [⟨"a", 5⟩, ⟨"b", 0⟩, ⟨"c", 5⟩ ] 0 9 ∧
    ¬ ((⟨"b", 0, -1⟩ : Piece).start ≤ (⟨"b", 0, -1⟩ : Piece).stop) := by
  refine ⟨by decide, by decide, by decide, by decide⟩

/-- C8 (amended: declared sizes strictly positive): for every segment list
with positive declared sizes and every range accepted by the validation
against the sum of declared sizes, every piece produced by `plan` satisfies
`intraStart ≤ intraEnd < declaredSegmentSize` of its segment. -/
theorem c8_piece_invariant (segs : List Segment) (s e : Int)
    (hpos : ∀ sg ∈ segs, 0 < sg.bytes)
    (hv : rangeValid s e (fileSizeNum 0 (segs.map Segment.bytes)) = true) :
    ∀ p ∈ plan segs s e,
      p.start ≤ p.stop ∧ ∃ sg ∈ segs, sg.id = p.id ∧ p.stop < sg.bytes := by
  have hb : 0 ≤ s ∧ s ≤ e := by
    simp [rangeValid] at hv
    omega
  have hplan : plan segs s e = planSpecGo segs s e 0 true := by
    simpa using planGo_eq_specGo segs s e 0 []
  rw [hplan]
  exact planSpecGo_invariant segs s e 0 true hpos hb.1 hb.2
    ⟨fun _ => hb.1, fun h => by simp at h⟩

/-- C8 witness: the invariant instantiated at sizes `[100, 100]` and range
`[0, 150]`, for the produced piece `("seg1", 0, 50)`. -/
theorem c8_piece_invariant_witness :
    (⟨"seg1", 0, 50⟩ : Piece).start ≤ (⟨"seg1", 0, 50⟩ : Piece).stop ∧
    ∃ sg ∈ [⟨"seg0", 100⟩, ⟨"seg1", 100⟩ ],
      Segment.id sg = (⟨"seg1", 0, 50⟩ : Piece).id ∧
      (⟨"seg1", 0, 50⟩ : Piece).stop < Segment.bytes sg :=
  c8_piece_invariant [⟨"seg0", 100⟩, ⟨"seg1", 100⟩ ] 0 150
    (by decide) (by decide) ⟨"seg1", 0, 50⟩ (by decide)

/-- C2 counterexample: when the subject carries a positive size (here 50) the
validation uses it instead of the sum of the declared segment sizes (here
`60 + 40 = 100`), so the range `[0, 99]` is rejected although none of the
claim's failure conditions (`end ≥ sum`, `start > end`, a negative bound)
holds. -/
theorem c2_subject_size_counterexample :
    fileSizeNum 50 [60, 40] = 50 ∧
    rangeValid 0 99 (fileSizeNum 50 [60, 40]) = false ∧
    ¬ ((99:Int) ≥ 60 + 40 ∨ (0:Int) > 99 ∨ (0:Int) < 0 ∨ (99:Int) < 0) := by
  refine ⟨by decide, by decide, by decide⟩

/-- C2 (amended): the `get` validation rejects exactly when `end ≥ fileSize`,
`start > end`, or a bound is negative, where `fileSize` is the subject-parsed
size when positive and otherwise the sum of the declared segment sizes. -/
theorem c2_range_validation (s e subjectSize : Int) (segBytes : List Int) :
    (rangeValid s e (fileSizeNum subjectSize segBytes) = false ↔
      (e ≥ fileSizeNum subjectSize segBytes ∨ s > e ∨ s < 0 ∨ e < 0)) ∧
    (subjectSize ≤ 0 → fileSizeNum subjectSize segBytes = segBytes.foldl (· + ·) 0) ∧
    (0 < subjectSize → fileSizeNum subjectSize segBytes = subjectSize) := by
  refine ⟨?_, fun h => ?_, fun h => ?_⟩
  · simp [rangeValid]
    omega
  · rw [fileSizeNum, if_neg (by omega)]
  · rw [fileSizeNum, if_pos (by omega)]

/-- C2 witness: at `subjectSize = -3` the validation size is the segment sum
`[60, 40].foldl (+) 0`. -/
theorem c2_range_validation_witness :
    fileSizeNum (-3) [60, 40] = [(60:Int), 40].foldl (· + ·) 0 :=
  (c2_range_validation 0 0 (-3) [60, 40]).2.1 (by decide)

/-- C10 counterexample: for a file of size 1 the request `start = 0, end = 0`
is rewritten to the validated range `[0, 0]`, which is exactly a one-byte
range covering only byte 0 — so such a range can be expressed via `end = 0`,
contrary to the claim's universal "cannot". -/
theorem c10_size_one_counterexample : getRange 0 0 1 = some (0, 0) := by decide

/-- C10 (amended: the inexpressibility clause restricted to file sizes other
than 1): `end = 0` is rewritten to `fileSize - 1` before validation; the
request `start = 0, end = 0` retrieves the entire file whenever the file is
non-empty; for a file whose size is not 1, `end = 0` never denotes the
one-byte range `[0, 0]`; and for a file of size 0 every request fails
validation. -/
theorem c10_end_zero_default :
    (∀ s fileSize : Int, getRange s 0 fileSize =
      if rangeValid s (fileSize - 1) fileSize then some (s, fileSize - 1) else none) ∧
    (∀ fileSize : Int, 1 ≤ fileSize → getRange 0 0 fileSize = some (0, fileSize - 1)) ∧
    (∀ fileSize : Int, fileSize ≠ 1 → getRange 0 0 fileSize ≠ some (0, 0)) ∧
    (∀ s e : Int, getRange s e 0 = none) := by
  refine ⟨fun s fileSize => ?_, fun fileSize h => ?_, fun fileSize h => ?_, fun s e => ?_⟩
  · rw [getRange, effEnd, if_pos rfl]
  · rw [getRange, effEnd, if_pos rfl, if_pos]
    simp [rangeValid]
    omega
  · rw [getRange, effEnd, if_pos rfl]
    split
    · rename_i hv
      simp [rangeValid] at hv
      simp
      omega
    · simp
  · rw [getRange]
    rw [if_neg]
    simp [rangeValid, effEnd]
    split <;> omega

/-- C10 witness: the amended behaviors at file sizes 5 and 0. -/
theorem c10_end_zero_default_witness :
    getRange 0 0 5 = some (0, 4) ∧ getRange 2 7 0 = none :=
  ⟨c10_end_zero_default.2.1 5 (by decide), c10_end_zero_default.2.2.2 2 7⟩

/-- C6: `Request` reads a dot-terminated payload only when the parsed status
code is 2xx and the upper-cased method is BODY, HEAD or ARTICLE; the STAT
method never consults the payload read (its result is independent of it and
carries no payload) even on 2xx; and a failed payload read after a successful
status yields success with no payload instead of propagating the error. -/
theorem c6_request_payload_gating :
    (∀ (line : List Nat) (d1 d2 : Except Unit (List (List Nat))),
      Request bytesSTAT (.ok line) d1 = Request bytesSTAT (.ok line) d2 ∧
      Request bytesSTAT (.ok line) d1 = .ok (parseCode line, line, none)) ∧
    (∀ (method line : List Nat) (dot : Except Unit (List (List Nat)))
      (code : Int) (sl : List Nat) (pay : Option (List (List Nat))),
      Request method (.ok line) dot = .ok (code, sl, pay) → ¬ pay = none →
      (200 ≤ parseCode line ∧ parseCode line < 300 ∧
        (method.map asciiUpper = bytesBODY ∨ method.map asciiUpper = bytesHEAD ∨
         method.map asciiUpper = bytesARTICLE))) ∧
    (∀ (method line : List Nat),
      Request method (.ok line) (.error ()) = .ok (parseCode line, line, none)) := by
  have hstat : ¬ (bytesSTAT.map asciiUpper = bytesBODY ∨ bytesSTAT.map asciiUpper = bytesHEAD ∨
      bytesSTAT.map asciiUpper = bytesARTICLE) := by decide
  refine ⟨fun line d1 d2 => ⟨?_, ?_⟩, fun method line dot code sl pay h hpay => ?_,
    fun method line => ?_⟩
  · simp [Request, hstat]
  · simp [Request, hstat]
  · simp only [Request, Except.ok.injEq, Prod.mk.injEq] at h
    obtain ⟨hcode, hline, hpay2⟩ := h
    rw [← hpay2] at hpay
    split at hpay
    · rename_i h2xx
      split at hpay
      · rename_i hmeth
        exact ⟨h2xx.1, h2xx.2, hmeth⟩
      · exact absurd rfl hpay
    · exact absurd rfl hpay
  · simp only [Request]
    split
    · split
      · rfl
      · rfl
    · rfl

/-- C6 witness: a BODY request with status line "222" and a successful payload
read carries a payload, and the gating conditions hold at that input. -/
theorem c6_request_payload_gating_witness :
    200 ≤ parseCode [50, 50, 50] ∧ parseCode [50, 50, 50] < 300 ∧
    (bytesBODY.map asciiUpper = bytesBODY ∨ bytesBODY.map asciiUpper = bytesHEAD ∨
     bytesBODY.map asciiUpper = bytesARTICLE) :=
  c6_request_payload_gating.2.1 bytesBODY [50, 50, 50] (.ok [[120]]) 222 [50, 50, 50]
    (some [[120]]) rfl (by decide)

/-- C7: `Auth` is a no-op returning success on an empty username (nothing is
sent); otherwise it sends the username command, and a "381" first response
makes it send the password and succeed exactly when the final status begins
"281" (rejected otherwise); a "281" first response succeeds without sending a
password; any other first response is the unexpected-response error. -/
theorem c7_authenticate :
    (∀ (r1 r2 : Except Unit (List Nat)), Auth "" r1 r2 = (.ok, false, false)) ∧
    (∀ (u : String) (l1 l2 : List Nat), ¬ u = "" → bytes381.isPrefixOf l1 = true →
      Auth u (.ok l1) (.ok l2) =
        (if bytes281.isPrefixOf l2 then .ok else .rejected l2, true, true)) ∧
    (∀ (u : String) (l1 : List Nat) (r2 : Except Unit (List Nat)), ¬ u = "" →
      bytes381.isPrefixOf l1 = false → bytes281.isPrefixOf l1 = true →
      Auth u (.ok l1) r2 = (.ok, true, false)) ∧
    (∀ (u : String) (l1 : List Nat) (r2 : Except Unit (List Nat)), ¬ u = "" →
      bytes381.isPrefixOf l1 = false → bytes281.isPrefixOf l1 = false →
      Auth u (.ok l1) r2 = (.unexpected l1, true, false)) := by
  refine ⟨fun r1 r2 => rfl, fun u l1 l2 hu h381 => ?_, fun u l1 r2 hu h381 h281 => ?_,
    fun u l1 r2 hu h381 h281 => ?_⟩
  · simp [Auth, hu, h381]
    split <;> rfl
  · simp [Auth, hu, h381, h281]
  · simp [Auth, hu, h381, h281]

/-- C7 witness: a session replying "381" then "481" is rejected after the
password was sent. -/
theorem c7_authenticate_witness :
    Auth "u" (.ok [51, 56, 49]) (.ok [52, 56, 49]) = (.rejected [52, 56, 49], true, true) := by
  rw [c7_authenticate.2.1 "u" [51, 56, 49] [52, 56, 49] (by decide) (by decide)]
  decide

/-- C9 counterexample: the first `Quit` on an open connection succeeds, but a
second `Quit` on the same session returns the underlying transport's
already-closed error instead of succeeding the same as the first call. -/
theorem c9_double_quit_counterexample :
    (Quit (.ok ()) ⟨false⟩).1 = .ok () ∧
    (Quit (.ok ()) (Quit (.ok ()) ⟨false⟩).2).1 = .error () :=
  ⟨rfl, rfl⟩

/-- C9 (amended): `Quit` ignores errors from the best-effort termination
command and releases the transport on every call, and a repeated call leaves
the state unchanged (idempotent on the transport state) — but the second call
returns the transport's already-closed error rather than succeeding. -/
theorem c9_quit_releases_transport :
    (∀ (sr sr2 : Except Unit Unit) (c : Conn), Quit sr c = Quit sr2 c) ∧
    (∀ (sr : Except Unit Unit) (c : Conn), ((Quit sr c).2).closed = true) ∧
    (∀ (sr sr2 : Except Unit Unit) (c : Conn), (Quit sr2 (Quit sr c).2).2 = (Quit sr c).2) ∧
    (∀ (sr sr2 : Except Unit Unit) (c : Conn), (Quit sr2 (Quit sr c).2).1 = .error ()) := by
  refine ⟨fun sr sr2 c => rfl, fun sr c => ?_, fun sr sr2 c => ?_, fun sr sr2 c => ?_⟩ <;>
    (rcases c with ⟨closed⟩; cases closed <;> rfl)

/-- C1: evaluation of the assembler at the failing input.  One segment of
declared size 2 whose transported payload (after the transport reader's
dot-unstuffing) is the single line `".."` (bytes `[46, 46]`) truly decodes to
`[4, 4]`; the full-file request `start = 0, end = 0` validates to the range
`[0, 1]`, yet the assembly loop strips a second leading dot from the line and
emits only `[4]` — not the concatenation of the segment's decoded content. -/
theorem c1_assembler_double_unstuff :
    getRange 0 0 2 = some (0, 1) ∧
    decodeYEncLine [46, 46] = some [4, 4] ∧
    plan [⟨"a", 2⟩ ] 0 1 = [⟨"a", 0, 1⟩ ] ∧
    fetchRange [⟨"a", 2⟩ ] (fun i => if i = "a" then some [[46, 46]] else none) 0 1 =
      some [4] ∧
    ¬ ([4] = ([4, 4] : List Nat)) := by
  refine ⟨by decide, by decide, by decide, by decide, by decide⟩
